import Mathlib

/-!
Verification of the Mandelbrot renderer (`src/main.rs`) against its
specification.  The Rust `f64` arithmetic on complex points is modelled by
exact rational arithmetic (`ℚ`); machine bytes are natural numbers with the
`u8` cast written explicitly as `% 256`; the pixel buffer is a `List ℕ`.
The two parallel strategies mutate disjoint row-aligned sub-slices of the
buffer in place, so their final buffer is the concatenation of the bands
each task renders; the embedding makes that concatenation explicit.
-/

namespace Mandelbrot

/-- `num::Complex<f64>`: a pair of coordinates, modelled over `ℚ`. -/
@[ext]
structure Complex where
  re : ℚ
  im : ℚ
deriving DecidableEq

instance : Add Complex :=
  ⟨fun a b => ⟨a.re + b.re, a.im + b.im⟩⟩

instance : Mul Complex :=
  ⟨fun a b => ⟨a.re * b.re - a.im * b.im, a.re * b.im + a.im * b.re⟩⟩

/-- `Complex::norm_sqr`: squared magnitude `re*re + im*im`. -/
def norm_sqr (z : Complex) : ℚ :=
  z.re * z.re + z.im * z.im

/-- The loop of `escape_time` (main.rs lines 16-21): `fuel` is the number of
remaining iterations (`limit - i`) and `i` the current loop index. -/
def escapeTimeAux (c : Complex) : Complex → ℕ → ℕ → Option ℕ
  | _, _, 0 => none
  | z, i, fuel + 1 =>
    let z1 := z * z + c
    if 4 < norm_sqr z1 then some i else escapeTimeAux c z1 (i + 1) fuel

/-- `escape_time` (main.rs lines 14-23): iterate `z ← z² + c` from `z = 0`
for at most `limit` steps, returning the index of the first iterate whose
squared magnitude exceeds `4.0`. -/
def escape_time (c : Complex) (limit : ℕ) : Option ℕ :=
  escapeTimeAux c ⟨0, 0⟩ 0 limit

/-- The orbit `z₀ = 0`, `z_{n+1} = z_n² + c` (specification-side view of the
loop variable of `escape_time`). -/
def zIter (c : Complex) : ℕ → Complex
  | 0 => ⟨0, 0⟩
  | n + 1 => zIter c n * zIter c n + c

/-- `parse_pair` (main.rs lines 25-35), generic over the element parser
`from_str` just as the Rust function is generic over `T: FromStr`: find the
first occurrence of `separator`, parse the text before and after it, and
succeed only if both halves parse. -/
def parse_pair {α : Type} (from_str : List Char → Option α)
    (s : List Char) (separator : Char) : Option (α × α) :=
  match s.findIdx? (fun ch => ch = separator) with
  | none => none
  | some index =>
    match from_str (s.take index), from_str (s.drop (index + 1)) with
    | some l, some r => some (l, r)
    | _, _ => none

/-- Numeric value of a digit string (most significant first). -/
def digitsVal (cs : List Char) : ℕ :=
  cs.foldl (fun acc ch => acc * 10 + (ch.toNat - 48)) 0

/-- A nonempty string of decimal digits parses to its value. -/
def parseNatDigits (cs : List Char) : Option ℕ :=
  if cs ≠ [] ∧ cs.all (fun ch => ch.isDigit) then some (digitsVal cs) else none

/-- Modelled from the spec: the external `i32::from_str` collaborator
("numeric-pair parsing" is out of scope, §1/§6) — an optional sign followed
by at least one decimal digit. -/
def int_from_str (cs : List Char) : Option ℤ :=
  match cs with
  | '-' :: rest => (parseNatDigits rest).map (fun n => -(n : ℤ))
  | '+' :: rest => (parseNatDigits rest).map (fun n => (n : ℤ))
  | _ => (parseNatDigits cs).map (fun n => (n : ℤ))

/-- Modelled from the spec: the external `f64::from_str` collaborator,
restricted to plain decimal notation `[-]digits[.digits]` (enough for the
spec's examples), returning the exact rational value. -/
def float_from_str (cs : List Char) : Option ℚ :=
  let core : List Char → Option ℚ := fun ds =>
    match ds.findIdx? (fun ch => ch = '.') with
    | none => (parseNatDigits ds).map (fun n => (n : ℚ))
    | some i =>
      let ip := ds.take i
      let fp := ds.drop (i + 1)
      if (ip ≠ [] ∨ fp ≠ []) ∧ ip.all (fun ch => ch.isDigit) ∧
          fp.all (fun ch => ch.isDigit) then
        some ((digitsVal ip : ℚ) + (digitsVal fp : ℚ) / (10 : ℚ) ^ fp.length)
      else none
  match cs with
  | '-' :: rest => (core rest).map (fun q => -q)
  | '+' :: rest => core rest
  | _ => core cs

/-- `pixel_to_point` (main.rs lines 61-71): linear interpolation of a pixel
coordinate into the plane rectangle, imaginary axis inverted. -/
def pixel_to_point (bounds : ℕ × ℕ) (pixel : ℕ × ℕ)
    (upper_left : Complex) (lower_right : Complex) : Complex :=
  let width : ℚ := lower_right.re - upper_left.re
  let height : ℚ := upper_left.im - lower_right.im
  { re := upper_left.re + (pixel.1 : ℚ) * width / (bounds.1 : ℚ)
    im := upper_left.im - (pixel.2 : ℚ) * height / (bounds.2 : ℚ) }

/-- The value stored by `render`'s inner loop (main.rs lines 89-92):
`0` for "did not escape", otherwise `255 - count as u8` (the `u8` cast is
`% 256`; the subtraction stays in range because `count < 255`). -/
def renderPixel (bounds : ℕ × ℕ) (pixel : ℕ × ℕ)
    (upper_left lower_right : Complex) : ℕ :=
  match escape_time (pixel_to_point bounds pixel upper_left lower_right) 255 with
  | none => 0
  | some count => 255 - count % 256

/-- `render` (main.rs lines 81-95): the sequential renderer, writing
`pixels[row * bounds.0 + column]` for every pixel in row-major order. -/
def render (pixels : List ℕ) (bounds : ℕ × ℕ)
    (upper_left lower_right : Complex) : List ℕ :=
  (List.range bounds.2).foldl (fun px row =>
    (List.range bounds.1).foldl (fun px column =>
      px.set (row * bounds.1 + column)
        (renderPixel bounds (column, row) upper_left lower_right)) px) pixels

/-- `slice::chunks_mut(n)`: the `i`-th chunk is the sub-slice
`[i*n, min ((i+1)*n, len))`; there are `⌈len / n⌉` chunks.  (Rust panics on
`n = 0`; every use below has `n > 0`.) -/
def chunksOf {α : Type} (n : ℕ) (xs : List α) : List (List α) :=
  (List.range ((xs.length + n - 1) / n)).map (fun i => (xs.drop (i * n)).take n)

/-- The band partition of `render_by_crossbeam` (main.rs lines 101-103):
`threads = 8`, `rows_per_band = bounds.1 / threads + 1`, and the buffer is
split into chunks of `rows_per_band * bounds.0` bytes. -/
def crossbeamBands (pixels : List ℕ) (bounds : ℕ × ℕ) : List (List ℕ) :=
  let threads := 8
  let rows_per_band := bounds.2 / threads + 1
  chunksOf (rows_per_band * bounds.1) pixels

/-- `render_by_crossbeam` (main.rs lines 96-118): render each band into its
own sub-slice; the final buffer is the concatenation of the rendered bands
(the spawned tasks write to disjoint slices and are all joined by
`crossbeam::scope` before returning). -/
def render_by_crossbeam (pixels : List ℕ) (bounds : ℕ × ℕ)
    (upper_left lower_right : Complex) : List ℕ :=
  let rows_per_band := bounds.2 / 8 + 1
  ((crossbeamBands pixels bounds).enum.map (fun ib =>
    let top := rows_per_band * ib.1
    let band := ib.2
    let height := band.length / bounds.1
    let band_bounds := (bounds.1, height)
    let band_upper_left := pixel_to_point bounds (0, top) upper_left lower_right
    let band_lower_right :=
      pixel_to_point bounds (bounds.1, top + height) upper_left lower_right
    render band band_bounds band_upper_left band_lower_right)).flatten

/-- The band partition of `render_by_rayon` (main.rs line 124): one chunk of
`bounds.0` bytes per row. -/
def rayonBands (pixels : List ℕ) (bounds : ℕ × ℕ) : List (List ℕ) :=
  chunksOf bounds.1 pixels

/-- `render_by_rayon` (main.rs lines 119-133): render each row into its own
sub-slice; the final buffer is the concatenation of the rendered rows (the
parallel `for_each` writes to disjoint slices and completes before
returning). -/
def render_by_rayon (pixels : List ℕ) (bounds : ℕ × ℕ)
    (upper_left lower_right : Complex) : List ℕ :=
  ((rayonBands pixels bounds).enum.map (fun ib =>
    let top := ib.1
    let band := ib.2
    let band_bounds := (bounds.1, 1)
    let band_upper_left := pixel_to_point bounds (0, top) upper_left lower_right
    let band_lower_right :=
      pixel_to_point bounds (bounds.1, top + 1) upper_left lower_right
    render band band_bounds band_upper_left band_lower_right)).flatten

/-- Row-major list of the bytes `render` produces for given bounds. -/
def renderSpec (bounds : ℕ × ℕ) (upper_left lower_right : Complex) : List ℕ :=
  (List.range bounds.2).flatMap (fun row =>
    (List.range bounds.1).map (fun col =>
      renderPixel bounds (col, row) upper_left lower_right))

/-! ### Basic facts about the complex arithmetic -/

@[simp]
theorem add_re (a b : Complex) : (a + b).re = a.re + b.re := rfl

@[simp]
theorem add_im (a b : Complex) : (a + b).im = a.im + b.im := rfl

@[simp]
theorem mul_re (a b : Complex) : (a * b).re = a.re * b.re - a.im * b.im := rfl

@[simp]
theorem mul_im (a b : Complex) : (a * b).im = a.re * b.im + a.im * b.re := rfl

/-! ### The escape-time evaluator -/

theorem zIter_one (c : Complex) : zIter c 1 = c := by
  show zIter c 0 * zIter c 0 + c = c
  ext <;> simp [zIter]

/-- The loop of `escape_time`, entered at step `k` with the loop variable
holding `zIter c k`, returns `some i` exactly when iteration `i` (with
`k ≤ i < k + fuel`) is the first one from `k` on whose iterate escapes. -/
theorem escapeTimeAux_eq_some (c : Complex) :
    ∀ (fuel k i : ℕ),
      (escapeTimeAux c (zIter c k) k fuel = some i ↔
        k ≤ i ∧ i < k + fuel ∧ 4 < norm_sqr (zIter c (i + 1)) ∧
          ∀ j, k ≤ j → j < i → norm_sqr (zIter c (j + 1)) ≤ 4) := by
  intro fuel
  induction fuel with
  | zero =>
    intro k i
    simp only [escapeTimeAux]
    constructor
    · intro h
      exact absurd h (by simp)
    · rintro ⟨h1, h2, -⟩
      omega
  | succ fuel ih =>
    intro k i
    have hz : zIter c k * zIter c k + c = zIter c (k + 1) := rfl
    simp only [escapeTimeAux, hz]
    by_cases hesc : 4 < norm_sqr (zIter c (k + 1))
    · simp only [if_pos hesc, Option.some.injEq]
      constructor
      · rintro rfl
        exact ⟨le_refl k, by omega, hesc, fun j h1 h2 => absurd (lt_of_le_of_lt h1 h2) (lt_irrefl k)⟩
      · rintro ⟨h1, h2, h3, h4⟩
        by_contra hne
        have hki : k < i := lt_of_le_of_ne h1 hne
        exact absurd hesc (not_lt.mpr (h4 k (le_refl k) hki))
    · simp only [if_neg hesc, ih (k + 1) i]
      constructor
      · rintro ⟨h1, h2, h3, h4⟩
        refine ⟨by omega, by omega, h3, fun j hj1 hj2 => ?_⟩
        rcases Nat.eq_or_lt_of_le hj1 with rfl | hlt
        · exact not_lt.mp hesc
        · exact h4 j hlt hj2
      · rintro ⟨h1, h2, h3, h4⟩
        have hki : k ≠ i := by
          rintro rfl
          exact hesc h3
        refine ⟨by omega, by omega, h3, fun j hj1 hj2 => h4 j (by omega) hj2⟩

/-- `escape_time c L = some i` iff iteration `i < L` is the first whose
iterate has squared magnitude above `4`. -/
theorem escape_time_eq_some (c : Complex) (L i : ℕ) :
    escape_time c L = some i ↔
      i < L ∧ 4 < norm_sqr (zIter c (i + 1)) ∧
        ∀ j < i, norm_sqr (zIter c (j + 1)) ≤ 4 := by
  have h0 : (⟨0, 0⟩ : Complex) = zIter c 0 := rfl
  rw [escape_time, h0, escapeTimeAux_eq_some c L 0 i]
  constructor
  · rintro ⟨-, h2, h3, h4⟩
    exact ⟨by omega, h3, fun j hj => h4 j (Nat.zero_le j) hj⟩
  · rintro ⟨h1, h2, h3⟩
    exact ⟨Nat.zero_le i, by omega, h2, fun j _ hj => h3 j hj⟩

theorem escape_time_lt_limit (c : Complex) (L i : ℕ)
    (h : escape_time c L = some i) : i < L :=
  ((escape_time_eq_some c L i).mp h).1

/-- C2: `escape_time c L` iterates `z ← z² + c` from `z = 0` for at most `L`
steps and returns `some i` exactly when `i < L` is the 0-based index of the
first iteration whose iterate has squared magnitude above `4.0`; it returns
`none` when no iterate escapes within `L` steps, and in particular
`escape_time c 0 = none` for every `c`. -/
theorem escape_time_spec :
    (∀ (c : Complex) (L i : ℕ),
        escape_time c L = some i ↔
          i < L ∧ 4 < norm_sqr (zIter c (i + 1)) ∧
            ∀ j < i, norm_sqr (zIter c (j + 1)) ≤ 4) ∧
    ∀ c : Complex, escape_time c 0 = none :=
  ⟨escape_time_eq_some, fun _ => rfl⟩

/-- C3 counterexample: at iteration limit `L = 0` the point `c = 3` (with
`|c| = 3 > 2`, i.e. `norm_sqr c = 9 > 4`) yields `escape_time c 0 = none`,
not an escape index below `L`. -/
theorem escape_far_cex :
    4 < norm_sqr (⟨3, 0⟩ : Complex) ∧ escape_time ⟨3, 0⟩ 0 = none := by
  refine ⟨by norm_num [norm_sqr], rfl⟩

/-- C3 (amended): for every positive iteration limit `L` and every point `c`
with `|c| > 2` (equivalently `norm_sqr c > 4`), `escape_time c L` returns an
escape index strictly less than `L` (indeed index `0`). -/
theorem escape_far_escapes (c : Complex) (L : ℕ) (hL : 0 < L)
    (hc : 4 < norm_sqr c) : ∃ i, escape_time c L = some i ∧ i < L := by
  refine ⟨0, ?_, hL⟩
  rw [escape_time_eq_some]
  exact ⟨hL, by rw [zIter_one]; exact hc,
    fun j hj => absurd hj (Nat.not_lt_zero j)⟩

/-- Witness for `escape_far_escapes` at `c = 3`, `L = 1`. -/
theorem escape_far_escapes_witness :
    (0 < 1 ∧ 4 < norm_sqr (⟨3, 0⟩ : Complex)) ∧
      ∃ i, escape_time ⟨3, 0⟩ 1 = some i ∧ i < 1 :=
  ⟨⟨Nat.one_pos, by norm_num [norm_sqr]⟩,
    escape_far_escapes ⟨3, 0⟩ 1 Nat.one_pos (by norm_num [norm_sqr])⟩

/-! ### The plane mapper -/

/-- C4: `pixel_to_point` computes
`re = upperLeft.re + x·(lowerRight.re − upperLeft.re)/W` and
`im = upperLeft.im − y·(upperLeft.im − lowerRight.im)/H`, and in particular
maps bounds `(100,100)`, pixel `(25,75)`, corners `(-1,1)` and `(1,-1)` to
`(-0.5, -0.5)`. -/
theorem pixel_to_point_formula :
    (∀ (W H x y : ℕ) (ul lr : Complex),
        pixel_to_point (W, H) (x, y) ul lr =
          ⟨ul.re + (x : ℚ) * (lr.re - ul.re) / (W : ℚ),
           ul.im - (y : ℚ) * (ul.im - lr.im) / (H : ℚ)⟩) ∧
    pixel_to_point (100, 100) (25, 75) ⟨-1, 1⟩ ⟨1, -1⟩ = ⟨-(1/2), -(1/2)⟩ := by
  constructor
  · intro W H x y ul lr
    rfl
  · simp only [pixel_to_point]
    ext <;> norm_num

/-- C5: for positive bounds, `pixel_to_point` maps pixel `(0,0)` exactly to
`upper_left` and pixel `(W,H)` exactly to `lower_right` (the rational model
of the `f64` arithmetic is exact, so no tolerance is needed). -/
theorem pixel_to_point_corners (W H : ℕ) (ul lr : Complex)
    (hW : 0 < W) (hH : 0 < H) :
    pixel_to_point (W, H) (0, 0) ul lr = ul ∧
    pixel_to_point (W, H) (W, H) ul lr = lr := by
  have hW' : (W : ℚ) ≠ 0 := Nat.cast_ne_zero.mpr hW.ne'
  have hH' : (H : ℚ) ≠ 0 := Nat.cast_ne_zero.mpr hH.ne'
  constructor
  · simp only [pixel_to_point]
    ext <;> simp
  · simp only [pixel_to_point]
    ext
    · show ul.re + (W : ℚ) * (lr.re - ul.re) / (W : ℚ) = lr.re
      field_simp
    · show ul.im - (H : ℚ) * (ul.im - lr.im) / (H : ℚ) = lr.im
      field_simp

/-- Witness for `pixel_to_point_corners` at `W = 1`, `H = 2`. -/
theorem pixel_to_point_corners_witness :
    (0 < 1 ∧ 0 < 2) ∧
      (pixel_to_point (1, 2) (0, 0) ⟨0, 1⟩ ⟨1, 0⟩ = ⟨0, 1⟩ ∧
       pixel_to_point (1, 2) (1, 2) ⟨0, 1⟩ ⟨1, 0⟩ = ⟨1, 0⟩) :=
  ⟨⟨Nat.one_pos, by omega⟩,
    pixel_to_point_corners 1 2 ⟨0, 1⟩ ⟨1, 0⟩ Nat.one_pos (by omega)⟩

/-! ### Pair parsing -/

/-- C8: `parse_pair` succeeds exactly when both halves around the first
separator occurrence parse, with the spec's examples: `"10,20"` → `(10,20)`,
`"0.5x1.5"` with `'x'` → `(0.5, 1.5)`, and `""`, `"10,"`, `",10"`,
`"10,20xy"` all fail. -/
theorem parse_pair_spec :
    (∀ (α : Type) (from_str : List Char → Option α) (s : List Char)
        (sep : Char) (l r : α),
        parse_pair from_str s sep = some (l, r) ↔
          ∃ index, s.findIdx? (fun ch => ch = sep) = some index ∧
            from_str (s.take index) = some l ∧
            from_str (s.drop (index + 1)) = some r) ∧
    parse_pair int_from_str "10,20".toList ',' = some (10, 20) ∧
    parse_pair float_from_str "0.5x1.5".toList 'x' = some (1/2, 3/2) ∧
    parse_pair int_from_str "".toList ',' = none ∧
    parse_pair int_from_str "10,".toList ',' = none ∧
    parse_pair int_from_str ",10".toList ',' = none ∧
    parse_pair int_from_str "10,20xy".toList ',' = none := by
  refine ⟨?_, by decide, ?_, by decide, by decide, by decide, by decide⟩
  · intro α f s sep l r
    unfold parse_pair
    cases hidx : s.findIdx? (fun ch => ch = sep) with
    | none => simp
    | some index =>
      cases hl : f (s.take index) <;> cases hr : f (s.drop (index + 1)) <;>
        simp [hl, hr, eq_comm]
  · simp +decide [parse_pair, float_from_str, parseNatDigits, digitsVal]
    norm_num

/-! ### The sequential renderer as a row-major list -/

/-- Writing `f 0 .. f (w-1)` at positions `base .. base+w-1` splices the
mapped range into the list. -/
theorem foldl_set_range (f : ℕ → ℕ) (w : ℕ) :
    ∀ (base : ℕ) (px : List ℕ), base + w ≤ px.length →
      (List.range w).foldl (fun px col => px.set (base + col) (f col)) px =
        px.take base ++ (List.range w).map f ++ px.drop (base + w) := by
  induction w with
  | zero =>
    intro base px h
    simp
  | succ w ih =>
    intro base px h
    rw [List.range_succ, List.foldl_append, ih base px (by omega),
      List.foldl_cons, List.foldl_nil]
    have hA : (px.take base).length = base := by
      rw [List.length_take]
      omega
    have hM : ((List.range w).map f).length = w := by simp
    have hAM : (px.take base ++ (List.range w).map f).length = base + w := by
      rw [List.length_append, hA, hM]
    rw [List.set_append_right _ _ hAM.le, hAM, Nat.sub_self,
      List.drop_eq_getElem_cons (by omega : base + w < px.length),
      List.set_cons_zero, List.map_append]
    simp [List.append_assoc, Nat.add_assoc]

/-- Length of the row-major generated block of `n` rows of width `w`. -/
theorem length_flatMap_rows (g : ℕ → ℕ → ℕ) (w n : ℕ) :
    ((List.range n).flatMap
      (fun row => (List.range w).map (fun col => g col row))).length = n * w := by
  induction n with
  | zero => simp
  | succ n ih =>
    rw [List.range_succ, List.flatMap_append]
    simp [ih, Nat.succ_mul]

/-- The nested row/column loop of `render`, for the first `n` rows. -/
theorem foldl_render_rows (g : ℕ → ℕ → ℕ) (w n : ℕ) :
    ∀ (px : List ℕ), n * w ≤ px.length →
      (List.range n).foldl (fun px row =>
        (List.range w).foldl
          (fun px col => px.set (row * w + col) (g col row)) px) px =
      (List.range n).flatMap
          (fun row => (List.range w).map (fun col => g col row)) ++
        px.drop (n * w) := by
  induction n with
  | zero =>
    intro px h
    simp
  | succ n ih =>
    intro px h
    have hsm : (n + 1) * w = n * w + w := by ring
    have hnw : n * w ≤ px.length := by omega
    rw [List.range_succ, List.foldl_append, ih px hnw, List.foldl_cons,
      List.foldl_nil]
    have hB := length_flatMap_rows g w n
    have hlen2 : n * w + w ≤
        ((List.range n).flatMap
            (fun row => (List.range w).map (fun col => g col row)) ++
          px.drop (n * w)).length := by
      rw [List.length_append, hB, List.length_drop]
      omega
    rw [foldl_set_range (fun col => g col n) w (n * w) _ hlen2]
    rw [List.take_left' hB]
    have hdrop : ((List.range n).flatMap
          (fun row => (List.range w).map (fun col => g col row)) ++
        px.drop (n * w)).drop (n * w + w) = px.drop (n * w + w) := by
      rw [← List.drop_drop, List.drop_left' hB, List.drop_drop]
    rw [hdrop, List.flatMap_append]
    simp [List.append_assoc, hsm]

/-- `render` on a buffer of exactly `w * h` bytes produces the row-major
list of per-pixel bytes, independently of the initial buffer contents. -/
theorem render_eq_renderSpec (w h : ℕ) (px : List ℕ) (ul lr : Complex)
    (hlen : px.length = w * h) :
    render px (w, h) ul lr = renderSpec (w, h) ul lr := by
  unfold render renderSpec
  rw [foldl_render_rows (fun col row => renderPixel (w, h) (col, row) ul lr) w h
    px (by rw [Nat.mul_comm]; omega)]
  rw [List.drop_eq_nil_of_le (by rw [Nat.mul_comm] at hlen; omega),
    List.append_nil]

/-- Element `row * w + col` of the row-major block generated for `h` rows of
width `w`. -/
theorem flatMap_rows_getElem (g : ℕ → ℕ → ℕ) (w h row col : ℕ)
    (hrow : row < h) (hcol : col < w) :
    ((List.range h).flatMap
        (fun r => (List.range w).map (fun c => g c r)))[row * w + col]? =
      some (g col row) := by
  obtain ⟨d, hd⟩ : ∃ d, h = row + (d + 1) := ⟨h - row - 1, by omega⟩
  subst hd
  rw [List.range_add, List.flatMap_append,
    List.getElem?_append_right (by rw [length_flatMap_rows]; omega),
    length_flatMap_rows, Nat.add_sub_cancel_left, List.flatMap_map,
    List.range_succ_eq_map, List.flatMap_cons,
    List.getElem?_append_left (by simpa using hcol)]
  simp [List.getElem?_range hcol]

/-- The byte `render` leaves at buffer position `row * w + col`. -/
theorem render_getElem (w h row col : ℕ) (px : List ℕ) (ul lr : Complex)
    (hlen : px.length = w * h) (hrow : row < h) (hcol : col < w) :
    (render px (w, h) ul lr)[row * w + col]? =
      some (renderPixel (w, h) (col, row) ul lr) := by
  rw [render_eq_renderSpec w h px ul lr hlen]
  exact flatMap_rows_getElem (fun c r => renderPixel (w, h) (c, r) ul lr)
    w h row col hrow hcol

/-- C6: on a buffer of length `w*h` the sequential renderer stores at every
position `row*w + col` the byte `255 − count` when the mapped point escapes
with `escape_time … 255 = some count`, and `0` when it does not escape. -/
theorem render_writes (w h row col : ℕ) (px : List ℕ) (ul lr : Complex)
    (hlen : px.length = w * h) (hrow : row < h) (hcol : col < w) :
    (render px (w, h) ul lr)[row * w + col]? =
      some (match escape_time (pixel_to_point (w, h) (col, row) ul lr) 255 with
            | none => 0
            | some count => 255 - count) := by
  rw [render_getElem w h row col px ul lr hlen hrow hcol]
  unfold renderPixel
  cases hesc : escape_time (pixel_to_point (w, h) (col, row) ul lr) 255 with
  | none => rfl
  | some count =>
    have h255 : count < 255 := escape_time_lt_limit _ _ _ hesc
    simp [Nat.mod_eq_of_lt (show count < 256 by omega)]

/-- Witness for `render_writes` on a 1×1 image. -/
theorem render_writes_witness :
    (([5] : List ℕ).length = 1 * 1 ∧ 0 < 1 ∧ 0 < 1) ∧
      (render [5] (1, 1) ⟨0, 0⟩ ⟨0, 0⟩)[0 * 1 + 0]? =
        some (match escape_time (pixel_to_point (1, 1) (0, 0) ⟨0, 0⟩ ⟨0, 0⟩) 255 with
              | none => 0
              | some count => 255 - count) :=
  ⟨⟨rfl, Nat.one_pos, Nat.one_pos⟩,
    render_writes 1 1 0 0 [5] ⟨0, 0⟩ ⟨0, 0⟩ rfl Nat.one_pos Nat.one_pos⟩

/-- C10: with the fixed limit 255 every escape count is at most 254, so the
stored byte `255 − count` lies in `1..=255` (the `u8` cast is lossless and
the subtraction cannot underflow), and a rendered byte equals `0` exactly
when the pixel's mapped point did not escape within 255 iterations. -/
theorem render_byte_zero_iff (w h row col : ℕ) (px : List ℕ) (ul lr : Complex)
    (hlen : px.length = w * h) (hrow : row < h) (hcol : col < w) :
    (∀ count,
        escape_time (pixel_to_point (w, h) (col, row) ul lr) 255 = some count →
          count ≤ 254 ∧ count % 256 = count ∧
            1 ≤ 255 - count ∧ 255 - count ≤ 255) ∧
    ((render px (w, h) ul lr)[row * w + col]? = some 0 ↔
      escape_time (pixel_to_point (w, h) (col, row) ul lr) 255 = none) := by
  constructor
  · intro count hc
    have h255 : count < 255 := escape_time_lt_limit _ _ _ hc
    exact ⟨by omega, Nat.mod_eq_of_lt (by omega), by omega, by omega⟩
  · rw [render_getElem w h row col px ul lr hlen hrow hcol]
    unfold renderPixel
    cases hesc : escape_time (pixel_to_point (w, h) (col, row) ul lr) 255 with
    | none => simp
    | some count =>
      have h255 : count < 255 := escape_time_lt_limit _ _ _ hesc
      have hmod : count % 256 = count := Nat.mod_eq_of_lt (by omega)
      simp [hmod]
      omega

/-- Witness for `render_byte_zero_iff` on a 1×1 image. -/
theorem render_byte_zero_iff_witness :
    (([9] : List ℕ).length = 1 * 1 ∧ 0 < 1 ∧ 0 < 1) ∧
      ((∀ count,
          escape_time (pixel_to_point (1, 1) (0, 0) ⟨0, 2⟩ ⟨0, 2⟩) 255 = some count →
            count ≤ 254 ∧ count % 256 = count ∧
              1 ≤ 255 - count ∧ 255 - count ≤ 255) ∧
        ((render [9] (1, 1) ⟨0, 2⟩ ⟨0, 2⟩)[0 * 1 + 0]? = some 0 ↔
          escape_time (pixel_to_point (1, 1) (0, 0) ⟨0, 2⟩ ⟨0, 2⟩) 255 = none)) :=
  ⟨⟨rfl, Nat.one_pos, Nat.one_pos⟩,
    render_byte_zero_iff 1 1 0 0 [9] ⟨0, 2⟩ ⟨0, 2⟩ rfl Nat.one_pos Nat.one_pos⟩

/-! ### The chunk partitions used by the parallel strategies -/

theorem length_chunksOf {α : Type} (n : ℕ) (xs : List α) :
    (chunksOf n xs).length = (xs.length + n - 1) / n := by
  simp [chunksOf]

theorem chunksOf_getElem {α : Type} (n : ℕ) (xs : List α) (i : ℕ)
    (hi : i < (xs.length + n - 1) / n) :
    (chunksOf n xs)[i]? = some ((xs.drop (i * n)).take n) := by
  simp [chunksOf, List.getElem?_range hi]

theorem chunksOf_getElem_inv {α : Type} {n : ℕ} {xs ci : List α} {i : ℕ}
    (h : (chunksOf n xs)[i]? = some ci) :
    ci = (xs.drop (i * n)).take n ∧ i < (xs.length + n - 1) / n := by
  have hlt : i < (xs.length + n - 1) / n := by
    by_contra hge
    rw [List.getElem?_eq_none (by rw [length_chunksOf]; omega)] at h
    exact Option.noConfusion h
  rw [chunksOf_getElem n xs i hlt, Option.some.injEq] at h
  exact ⟨h.symm, hlt⟩

/-- The first chunk splits off: `chunksOf n xs = take n xs :: chunksOf n (drop n xs)`
for nonempty `xs` and positive `n`. -/
theorem chunksOf_cons {α : Type} (n : ℕ) (xs : List α) (hn : 0 < n)
    (hxs : 0 < xs.length) :
    chunksOf n xs = xs.take n :: chunksOf n (xs.drop n) := by
  unfold chunksOf
  have hK : (xs.length + n - 1) / n = (xs.length - 1) / n + 1 := by
    have h1 : xs.length + n - 1 = (xs.length - 1) + n := by omega
    rw [h1, Nat.add_div_right _ hn]
  have hK2 : ((xs.drop n).length + n - 1) / n = (xs.length - 1) / n := by
    rw [List.length_drop]
    by_cases hc : n ≤ xs.length
    · congr 1
      omega
    · rw [show xs.length - n = 0 by omega]
      rw [Nat.div_eq_of_lt (by omega : (xs.length - 1) < n)]
      exact Nat.div_eq_of_lt (by omega)
  rw [hK, hK2, List.range_succ_eq_map, List.map_cons, List.map_map]
  congr 1
  · simp
  · apply List.map_congr_left
    intro i _
    show (xs.drop ((i + 1) * n)).take n = ((xs.drop n).drop (i * n)).take n
    rw [List.drop_drop]
    congr 2
    ring

/-- Re-concatenating the chunks recovers the original list. -/
theorem flatten_chunksOf {α : Type} (n : ℕ) (hn : 0 < n) (xs : List α) :
    (chunksOf n xs).flatten = xs := by
  suffices h : ∀ (fuel : ℕ) (ys : List α), ys.length ≤ fuel →
      (chunksOf n ys).flatten = ys from h xs.length xs (le_refl _)
  intro fuel
  induction fuel with
  | zero =>
    intro ys hy
    have h0 : ys = [] := List.length_eq_zero.mp (by omega)
    subst h0
    unfold chunksOf
    rw [Nat.div_eq_of_lt (by simp only [List.length_nil]; omega)]
    simp
  | succ fuel ih =>
    intro ys hy
    rcases Nat.eq_zero_or_pos ys.length with h0 | h0
    · have h0' : ys = [] := List.length_eq_zero.mp h0
      subst h0'
      unfold chunksOf
      rw [Nat.div_eq_of_lt (by simp only [List.length_nil]; omega)]
      simp
    · rw [chunksOf_cons n ys hn h0, List.flatten_cons,
        ih (ys.drop n) (by rw [List.length_drop]; omega), List.take_append_drop]

/-- Every chunk except possibly the last is full. -/
theorem chunksOf_full {α : Type} {n : ℕ} {xs ci : List α} {i : ℕ} (hn : 0 < n)
    (hne : i + 1 < (chunksOf n xs).length)
    (hci : (chunksOf n xs)[i]? = some ci) : ci.length = n := by
  obtain ⟨rfl, hlt⟩ := chunksOf_getElem_inv hci
  rw [length_chunksOf] at hne
  have h2 : (i + 2) * n ≤ xs.length + n - 1 :=
    (Nat.le_div_iff_mul_le hn).mp hne
  have h3 : (i + 2) * n = i * n + n + n := by ring
  simp only [List.length_take, List.length_drop]
  omega

/-- No chunk is longer than the chunk size. -/
theorem chunksOf_le {α : Type} {n : ℕ} {xs ci : List α} {i : ℕ}
    (hci : (chunksOf n xs)[i]? = some ci) : ci.length ≤ n := by
  obtain ⟨rfl, -⟩ := chunksOf_getElem_inv hci
  simp [List.length_take]

theorem chunksOf_mem_inv {α : Type} {n : ℕ} {xs ci : List α}
    (h : ci ∈ chunksOf n xs) :
    ∃ i, i < (xs.length + n - 1) / n ∧ ci = (xs.drop (i * n)).take n := by
  unfold chunksOf at h
  rw [List.mem_map] at h
  obtain ⟨i, hi, rfl⟩ := h
  exact ⟨i, List.mem_range.mp hi, rfl⟩

theorem crossbeamBands_eq (px : List ℕ) (w h : ℕ) :
    crossbeamBands px (w, h) = chunksOf ((h / 8 + 1) * w) px := rfl

theorem rayonBands_eq (px : List ℕ) (w h : ℕ) :
    rayonBands px (w, h) = chunksOf w px := rfl

/-- C7 counterexample: for bounds `(1, 8)` the code's partition has four
bands of `2` rows each (`rows_per_band = 8/8 + 1 = 2`), not bands of
`⌈8/8⌉ = 1` row. -/
theorem crossbeam_band_rows_cex :
    (crossbeamBands (List.replicate 8 0) (1, 8)).map List.length =
        [2, 2, 2, 2] ∧
      (8 + 8 - 1) / 8 = 1 := by
  constructor
  · decide
  · decide

/-- C7 (amended): the fixed-band strategy with 8 workers partitions the
buffer into bands of exactly `h/8 + 1` rows (`(h/8 + 1) * w` bytes) each,
with only the last band possibly shorter. -/
theorem crossbeam_band_rows (w h : ℕ) (px : List ℕ)
    (hw : 0 < w) (hlen : px.length = w * h) :
    (∀ i ci, i + 1 < (crossbeamBands px (w, h)).length →
        (crossbeamBands px (w, h))[i]? = some ci →
        ci.length = (h / 8 + 1) * w) ∧
    ∀ ci ∈ crossbeamBands px (w, h), ci.length ≤ (h / 8 + 1) * w := by
  rw [crossbeamBands_eq]
  have hn : 0 < (h / 8 + 1) * w := by positivity
  constructor
  · intro i ci hne hci
    exact chunksOf_full hn hne hci
  · intro ci hmem
    obtain ⟨i, -, rfl⟩ := chunksOf_mem_inv hmem
    simp [List.length_take]

/-- Witness for `crossbeam_band_rows` at bounds `(1, 8)`. -/
theorem crossbeam_band_rows_witness :
    (0 < 1 ∧ (List.replicate 8 (0 : ℕ)).length = 1 * 8) ∧
      ((∀ i ci, i + 1 < (crossbeamBands (List.replicate 8 0) (1, 8)).length →
          (crossbeamBands (List.replicate 8 0) (1, 8))[i]? = some ci →
          ci.length = (8 / 8 + 1) * 1) ∧
        ∀ ci ∈ crossbeamBands (List.replicate 8 0) (1, 8),
          ci.length ≤ (8 / 8 + 1) * 1) :=
  ⟨⟨Nat.one_pos, by decide⟩,
    crossbeam_band_rows 1 8 (List.replicate 8 0) Nat.one_pos (by decide)⟩

/-- C9: for both parallel strategies the bands occupy index ranges
`[i*n, i*n + lenᵢ)` of the buffer which are pairwise disjoint (each band
ends no later than any later band starts), start on row boundaries, consist
of whole rows, and concatenate back to the entire buffer `[0, w*h)`. -/
theorem bands_partition (w h : ℕ) (px : List ℕ)
    (hw : 0 < w) (hlen : px.length = w * h) :
    ((crossbeamBands px (w, h)).flatten = px ∧
      (rayonBands px (w, h)).flatten = px) ∧
    (∀ i j ci, i < j → (crossbeamBands px (w, h))[i]? = some ci →
        i * ((h / 8 + 1) * w) + ci.length ≤ j * ((h / 8 + 1) * w)) ∧
    (∀ i j ci, i < j → (rayonBands px (w, h))[i]? = some ci →
        i * w + ci.length ≤ j * w) ∧
    (w ∣ (h / 8 + 1) * w ∧
      (∀ ci ∈ crossbeamBands px (w, h), w ∣ ci.length) ∧
      ∀ ci ∈ rayonBands px (w, h), w ∣ ci.length) := by
  rw [crossbeamBands_eq, rayonBands_eq]
  have hn : 0 < (h / 8 + 1) * w := by positivity
  have hdisj : ∀ (n : ℕ) (i j : ℕ) (ci : List ℕ), i < j →
      (chunksOf n px)[i]? = some ci → i * n + ci.length ≤ j * n := by
    intro n i j ci hij hci
    have h1 : ci.length ≤ n := chunksOf_le hci
    have h2 : (i + 1) * n ≤ j * n := Nat.mul_le_mul_right n hij
    have h3 : (i + 1) * n = i * n + n := by ring
    omega
  have hmemdvd : ∀ (n : ℕ), w ∣ n → ∀ ci ∈ chunksOf n px, w ∣ ci.length := by
    intro n hwn ci hmem
    obtain ⟨i, -, rfl⟩ := chunksOf_mem_inv hmem
    simp only [List.length_take, List.length_drop]
    have hd1 : w ∣ px.length - i * n :=
      Nat.dvd_sub' ⟨h, hlen⟩ (Dvd.dvd.mul_left hwn i)
    rcases min_cases n (px.length - i * n) with ⟨hmin, -⟩ | ⟨hmin, -⟩ <;>
      rw [hmin]
    · exact hwn
    · exact hd1
  refine ⟨⟨flatten_chunksOf _ hn px, flatten_chunksOf _ hw px⟩,
    fun i j ci => hdisj _ i j ci, fun i j ci => hdisj _ i j ci,
    dvd_mul_left w (h / 8 + 1), hmemdvd _ (dvd_mul_left w (h / 8 + 1)),
    hmemdvd _ dvd_rfl⟩

/-- Witness for `bands_partition` on a 2×3 buffer. -/
theorem bands_partition_witness :
    (0 < 2 ∧ (List.replicate 6 (7 : ℕ)).length = 2 * 3) ∧
      (((crossbeamBands (List.replicate 6 7) (2, 3)).flatten =
          List.replicate 6 7 ∧
        (rayonBands (List.replicate 6 7) (2, 3)).flatten =
          List.replicate 6 7) ∧
      (∀ i j ci, i < j →
          (crossbeamBands (List.replicate 6 7) (2, 3))[i]? = some ci →
          i * ((3 / 8 + 1) * 2) + ci.length ≤ j * ((3 / 8 + 1) * 2)) ∧
      (∀ i j ci, i < j →
          (rayonBands (List.replicate 6 7) (2, 3))[i]? = some ci →
          i * 2 + ci.length ≤ j * 2) ∧
      (2 ∣ (3 / 8 + 1) * 2 ∧
        (∀ ci ∈ crossbeamBands (List.replicate 6 7) (2, 3), 2 ∣ ci.length) ∧
        ∀ ci ∈ rayonBands (List.replicate 6 7) (2, 3), 2 ∣ ci.length)) :=
  ⟨⟨by decide, by decide⟩,
    bands_partition 2 3 (List.replicate 6 7) (by decide) (by decide)⟩

/-! ### Band geometry: a band's plane rectangle is consistent with the
whole image -/

/-- Mapping a pixel inside a band through the band's plane rectangle (whose
corners were computed from the full image bounds) gives the same point as
mapping the corresponding full-image pixel. -/
theorem pixel_to_point_band (w h top height r c : ℕ) (ul lr : Complex)
    (hw : w ≠ 0) (hh : h ≠ 0) (hht : height ≠ 0) :
    pixel_to_point (w, height) (c, r)
        (pixel_to_point (w, h) (0, top) ul lr)
        (pixel_to_point (w, h) (w, top + height) ul lr) =
      pixel_to_point (w, h) (c, top + r) ul lr := by
  have hw' : (w : ℚ) ≠ 0 := Nat.cast_ne_zero.mpr hw
  have hh' : (h : ℚ) ≠ 0 := Nat.cast_ne_zero.mpr hh
  have hht' : (height : ℚ) ≠ 0 := Nat.cast_ne_zero.mpr hht
  unfold pixel_to_point
  ext
  · show _ + (c : ℚ) * _ / (w : ℚ) = _ + (c : ℚ) * _ / (w : ℚ)
    push_cast
    field_simp
  · show _ - (r : ℚ) * _ / (height : ℚ) = _ - _ * _ / (h : ℚ)
    push_cast
    field_simp
    ring

/-- The per-pixel byte computed inside a band equals the byte the full-image
render computes for the same pixel. -/
theorem renderPixel_band (w h top height r c : ℕ) (ul lr : Complex)
    (hw : w ≠ 0) (hh : h ≠ 0) (hht : height ≠ 0) :
    renderPixel (w, height) (c, r)
        (pixel_to_point (w, h) (0, top) ul lr)
        (pixel_to_point (w, h) (w, top + height) ul lr) =
      renderPixel (w, h) (c, top + r) ul lr := by
  unfold renderPixel
  rw [pixel_to_point_band w h top height r c ul lr hw hh hht]

/-! ### Tiling a row range by consecutive bands -/

theorem flatMap_congr_left {α β : Type} (l : List α) (f g : α → List β)
    (h : ∀ a ∈ l, f a = g a) : l.flatMap f = l.flatMap g := by
  unfold List.flatMap
  rw [List.map_congr_left h]

theorem flatMap_range_split (g : ℕ → List ℕ) (t h : ℕ) (ht : t ≤ h) :
    (List.range h).flatMap g =
      (List.range t).flatMap g ++
        (List.range (h - t)).flatMap (fun r => g (t + r)) := by
  conv_lhs => rw [show h = t + (h - t) by omega]
  rw [List.range_add, List.flatMap_append, List.flatMap_map]

/-- Consecutive bands of `m` rows each (the last possibly shorter) tile the
whole row range `[0, h)`. -/
theorem flatten_tiles (m : ℕ) (hm : 0 < m) :
    ∀ (K h : ℕ) (g : ℕ → List ℕ), K = (h + m - 1) / m →
      ((List.range K).map (fun i =>
          (List.range (min m (h - m * i))).flatMap
            (fun r => g (m * i + r)))).flatten =
        (List.range h).flatMap g := by
  intro K
  induction K with
  | zero =>
    intro h g hK
    have h0 : h = 0 := by
      by_contra hh0
      have h1 : 1 ≤ (h + m - 1) / m := (Nat.le_div_iff_mul_le hm).mpr (by omega)
      omega
    subst h0
    simp
  | succ K ih =>
    intro h g hK
    have hh1 : 1 ≤ h := by
      by_contra hh0
      have h0 : h = 0 := by omega
      subst h0
      rw [Nat.div_eq_of_lt (by omega)] at hK
      omega
    have hK2 : K = (h - m + m - 1) / m := by
      rcases Nat.lt_or_ge h m with hc | hc
      · have h1 : (h + m - 1) / m = 1 :=
          Nat.div_eq_of_lt_le (by omega) (by omega)
        rw [h1] at hK
        rw [show h - m = 0 by omega]
        rw [Nat.div_eq_of_lt (by omega)]
        omega
      · have h2 : h + m - 1 = (h - m + m - 1) + m := by omega
        rw [h2, Nat.add_div_right _ hm] at hK
        omega
    rw [List.range_succ_eq_map, List.map_cons, List.flatten_cons, List.map_map]
    have htail : (List.range K).map
          ((fun i => (List.range (min m (h - m * i))).flatMap
              (fun r => g (m * i + r))) ∘ Nat.succ) =
        (List.range K).map (fun i =>
          (List.range (min m (h - m - m * i))).flatMap
            (fun r => (fun t => g (m + t)) (m * i + r))) := by
      apply List.map_congr_left
      intro i _
      simp only [Function.comp_apply]
      have e0 : m * Nat.succ i = m + m * i := by
        simp only [Nat.succ_eq_add_one]
        ring
      have e1 : h - m * Nat.succ i = h - m - m * i := by omega
      rw [e1]
      apply flatMap_congr_left
      intro r _
      have e2 : m * Nat.succ i + r = m + (m * i + r) := by omega
      rw [e2]
    rw [htail, ih (h - m) (fun t => g (m + t)) hK2,
      flatMap_range_split g (min m h) h (min_le_right m h)]
    simp only [Nat.mul_zero, Nat.sub_zero, Nat.zero_add]
    congr 1
    rcases le_total m h with hc | hc
    · rw [min_eq_left hc]
    · rw [min_eq_right hc, show h - m = 0 by omega, show h - h = 0 by omega]
      rfl

/-! ### Chunk arithmetic for row-aligned bands -/

theorem ceil_div_mul (w m h : ℕ) (hw : 0 < w) (hm : 0 < m) :
    (w * h + m * w - 1) / (m * w) = (h + m - 1) / m := by
  have hmw : 0 < m * w := Nat.mul_pos hm hw
  rcases Nat.eq_zero_or_pos h with rfl | hh
  · rw [Nat.mul_zero, Nat.zero_add,
      Nat.div_eq_of_lt (show m * w - 1 < m * w by omega),
      Nat.div_eq_of_lt (show 0 + m - 1 < m by omega)]
  · have hwh : 1 ≤ w * h := Nat.mul_pos hw hh
    have e1 : w * h + m * w - 1 = (w * h - 1) + m * w := by omega
    have e2 : w * h - 1 = (w - 1) + (h - 1) * w := by
      have h3 : (h - 1) * w + w = h * w := by
        have h4 : h - 1 + 1 = h := by omega
        calc (h - 1) * w + w = (h - 1 + 1) * w := by ring
          _ = h * w := by rw [h4]
      have h5 : w * h = h * w := Nat.mul_comm w h
      omega
    rw [e1, Nat.add_div_right _ hmw, e2]
    have e3 : ((w - 1) + (h - 1) * w) / (m * w) = (h - 1) / m := by
      rw [Nat.mul_comm m w, ← Nat.div_div_eq_div_mul,
        Nat.add_mul_div_right _ _ hw,
        Nat.div_eq_of_lt (show w - 1 < w by omega), Nat.zero_add]
    rw [e3]
    have e4 : h + m - 1 = (h - 1) + m := by omega
    rw [e4, Nat.add_div_right _ hm]

theorem chunk_length_formula (w m h i : ℕ) (px : List ℕ)
    (hlen : px.length = w * h) :
    ((px.drop (i * (m * w))).take (m * w)).length = w * min m (h - m * i) := by
  simp only [List.length_take, List.length_drop, hlen]
  have e1 : w * h - i * (m * w) = w * (h - m * i) := by
    rw [Nat.mul_sub_left_distrib]
    congr 1
    ring
  rw [e1, show m * w = w * m by ring, min_mul_mul_left]

theorem zip_self_map {α β : Type} (l : List α) (g : α → β) :
    l.zip (l.map g) = l.map (fun a => (a, g a)) := by
  induction l with
  | nil => rfl
  | cons x xs ih => simp [ih]

theorem enum_map_range {β γ : Type} (K : ℕ) (g : ℕ → β) (F : ℕ × β → γ) :
    ((List.range K).map g).enum.map F =
      (List.range K).map (fun i => F (i, g i)) := by
  rw [List.enum_eq_enumFrom, List.enumFrom_eq_zip_range', List.length_map,
    List.length_range, ← List.range_eq_range', zip_self_map, List.map_map]
  rfl

/-- Generic banded rendering: splitting the buffer into chunks of `m` whole
rows, rendering each chunk with its own plane rectangle (derived from the
full bounds) and concatenating gives the sequential result. -/
theorem banded_render_eq (w h m : ℕ) (px : List ℕ) (ul lr : Complex)
    (hw : 0 < w) (hm : 0 < m) (hlen : px.length = w * h) :
    ((chunksOf (m * w) px).enum.map (fun ib =>
        render ib.2 (w, ib.2.length / w)
          (pixel_to_point (w, h) (0, m * ib.1) ul lr)
          (pixel_to_point (w, h) (w, m * ib.1 + ib.2.length / w) ul lr))).flatten
      = renderSpec (w, h) ul lr := by
  have hmw : 0 < m * w := Nat.mul_pos hm hw
  rcases Nat.eq_zero_or_pos h with rfl | hh
  · have hpx : px = [] := by
      rw [Nat.mul_zero] at hlen
      exact List.length_eq_zero.mp hlen
    subst hpx
    unfold chunksOf renderSpec
    rw [Nat.div_eq_of_lt (by simp only [List.length_nil]; omega)]
    simp
  · have hK : (px.length + m * w - 1) / (m * w) = (h + m - 1) / m := by
      rw [hlen]
      exact ceil_div_mul w m h hw hm
    unfold chunksOf
    rw [enum_map_range]
    have hstep : ∀ i ∈ List.range ((px.length + m * w - 1) / (m * w)),
        render ((px.drop (i * (m * w))).take (m * w))
            (w, ((px.drop (i * (m * w))).take (m * w)).length / w)
            (pixel_to_point (w, h) (0, m * i) ul lr)
            (pixel_to_point (w, h)
              (w, m * i + ((px.drop (i * (m * w))).take (m * w)).length / w)
              ul lr)
          = (List.range (min m (h - m * i))).flatMap
              (fun r => (List.range w).map
                (fun c => renderPixel (w, h) (c, m * i + r) ul lr)) := by
      intro i _
      have hclen : ((px.drop (i * (m * w))).take (m * w)).length =
          w * min m (h - m * i) := chunk_length_formula w m h i px hlen
      rw [hclen, Nat.mul_div_cancel_left _ hw]
      rw [render_eq_renderSpec w (min m (h - m * i)) _ _ _ hclen]
      unfold renderSpec
      apply flatMap_congr_left
      intro r hr
      rw [List.mem_range] at hr
      apply List.map_congr_left
      intro c _
      exact renderPixel_band w h (m * i) (min m (h - m * i)) r c ul lr
        (by omega) (by omega) (by omega)
    rw [List.map_congr_left hstep, hK]
    exact flatten_tiles m hm ((h + m - 1) / m) h
      (fun t => (List.range w).map
        (fun c => renderPixel (w, h) (c, t) ul lr)) rfl

theorem render_by_crossbeam_eq_render (w h : ℕ) (px : List ℕ) (ul lr : Complex)
    (hw : 0 < w) (hlen : px.length = w * h) :
    render_by_crossbeam px (w, h) ul lr = render px (w, h) ul lr := by
  rw [render_eq_renderSpec w h px ul lr hlen]
  exact banded_render_eq w h (h / 8 + 1) px ul lr hw (Nat.succ_pos _) hlen

theorem render_by_rayon_eq_render (w h : ℕ) (px : List ℕ) (ul lr : Complex)
    (hw : 0 < w) (hlen : px.length = w * h) :
    render_by_rayon px (w, h) ul lr = render px (w, h) ul lr := by
  rw [render_eq_renderSpec w h px ul lr hlen]
  have hgen := banded_render_eq w h 1 px ul lr hw Nat.one_pos hlen
  rw [Nat.one_mul] at hgen
  refine Eq.trans ?_ hgen
  show ((chunksOf w px).enum.map _).flatten =
    ((chunksOf w px).enum.map _).flatten
  congr 1
  unfold chunksOf
  rw [enum_map_range, enum_map_range]
  apply List.map_congr_left
  intro i hi
  rw [List.mem_range] at hi
  have hK : (px.length + w - 1) / w = h := by
    have h0 := ceil_div_mul w 1 h hw Nat.one_pos
    rw [Nat.one_mul] at h0
    rw [hlen, h0]
    simp
  rw [hK] at hi
  have hclen : ((px.drop (i * w)).take w).length = w := by
    have h1 := chunk_length_formula w 1 h i px hlen
    rw [Nat.one_mul] at h1
    rw [h1, min_eq_left (by omega), Nat.mul_one]
  rw [hclen, Nat.div_self hw, Nat.one_mul]

/-- C1: for every bounds `(w, h)` with `w * h` equal to the buffer length
(and positive width, without which `chunks_mut` would be called with chunk
size 0 and panic), the fixed-band (crossbeam) strategy and the row-parallel
(rayon) strategy leave the pixel buffer in exactly the state the sequential
renderer produces — the rational model of the `f64` arithmetic is exact, and
the bands tile the buffer, so the three final buffers are byte-identical. -/
theorem strategies_agree (w h : ℕ) (px : List ℕ) (ul lr : Complex)
    (hw : 0 < w) (hlen : px.length = w * h) :
    render_by_crossbeam px (w, h) ul lr = render px (w, h) ul lr ∧
    render_by_rayon px (w, h) ul lr = render px (w, h) ul lr :=
  ⟨render_by_crossbeam_eq_render w h px ul lr hw hlen,
   render_by_rayon_eq_render w h px ul lr hw hlen⟩

/-- Witness for `strategies_agree` on a 1×1 image. -/
theorem strategies_agree_witness :
    (0 < 1 ∧ ([7] : List ℕ).length = 1 * 1) ∧
      (render_by_crossbeam [7] (1, 1) ⟨0, 0⟩ ⟨0, 0⟩ =
          render [7] (1, 1) ⟨0, 0⟩ ⟨0, 0⟩ ∧
        render_by_rayon [7] (1, 1) ⟨0, 0⟩ ⟨0, 0⟩ =
          render [7] (1, 1) ⟨0, 0⟩ ⟨0, 0⟩) :=
  ⟨⟨Nat.one_pos, rfl⟩, strategies_agree 1 1 [7] ⟨0, 0⟩ ⟨0, 0⟩ Nat.one_pos rfl⟩

end Mandelbrot
